import Mathlib

/-!
Shallow embedding of the bigram-profile pipeline (Lab1.go).

Go strings are byte strings; we model them as lists of bytes.
Machine integers are modelled as natural numbers with explicit reductions
modulo 2 ^ 32 (for the uint32 bigram counters) and modulo 2 ^ 64 (for the
uint64 running totals), exactly where the Go code performs the
corresponding machine operations.  Out-of-range array indexing panics in
Go, so functions that may index out of range return an Option, with none
standing for a panic.  float64 values are modelled by an inductive type
with explicit NaN and infinity constructors and exact rational arithmetic
for the finite values; every float64 produced under the hypotheses of the
theorems below comes from an integer below 2 ^ 53, where the Go conversion
uint64 -> float64 is exact.
-/

set_option linter.unusedVariables false
set_option maxRecDepth 16384

namespace Lab1

/-- A Go byte. -/
abbrev Byte := Fin 256

/-- A Go string, i.e. an immutable byte string. -/
abbrev GoStr := List Byte

/-- Translation of the struct ProteinProfile: a 676-entry uint32 array of
bigram counts and a uint64 running total. -/
structure ProteinProfile where
  Profile : Fin 676 → Nat
  Sum : Nat

instance : DecidableEq ProteinProfile := fun x y =>
  decidable_of_iff (x.Profile = y.Profile ∧ x.Sum = y.Sum)
    (by cases x; cases y; simp)

/-- Zero value of ProteinProfile (all counters 0). -/
def zeroProfile : ProteinProfile := ⟨fun _ => 0, 0⟩

instance : Inhabited ProteinProfile := ⟨zeroProfile⟩

/-- Index computed by buildProfile for the adjacent byte pair (c1, c2):
int(c1 - 65) * 26 + int(c2 - 65), where the byte subtractions wrap
modulo 256 as in Go. -/
def bigramIndex (c1 c2 : Byte) : Nat :=
  ((c1.val + 256 - 65) % 256) * 26 + ((c2.val + 256 - 65) % 256)

/-- One loop iteration of buildProfile: profile[idx]++ (uint32) and
sum++ (uint64). -/
def bumpProfile (p : ProteinProfile) (idx : Fin 676) : ProteinProfile :=
  ⟨Function.update p.Profile idx ((p.Profile idx + 1) % 2 ^ 32),
   (p.Sum + 1) % 2 ^ 64⟩

/-- Tail of the buildProfile loop: c1 is the byte at the current window
position, the list holds the remaining bytes.  An index outside the
676-entry array is an out-of-range write, which panics in Go: none. -/
def buildAux : Byte → List Byte → ProteinProfile → Option ProteinProfile
  | _, [], p => some p
  | c1, c2 :: rest, p =>
    if h : bigramIndex c1 c2 < 676 then
      buildAux c2 rest (bumpProfile p ⟨bigramIndex c1 c2, h⟩)
    else none

/-- Translation of buildProfile: slide a window of two adjacent bytes over
the sequence, incrementing the count at the derived index and the running
total.  Sequences of length < 2 produce the all-zero profile. -/
def buildProfile : GoStr → Option ProteinProfile
  | [] => some zeroProfile
  | c :: rest => buildAux c rest zeroProfile

/-- Sum of all 676 bigram counters of a profile. -/
def sumCounts (p : ProteinProfile) : Nat :=
  (List.range 676).foldl
    (fun acc i => if h : i < 676 then acc + p.Profile ⟨i, h⟩ else acc) 0

/-- A byte of an uppercase letter A..Z. -/
def isUpper (b : Byte) : Prop := 65 ≤ b.val ∧ b.val ≤ 90

/-- A Go string made of uppercase letters A..Z only. -/
def upperStr (s : GoStr) : Prop := ∀ b ∈ s, isUpper b

instance (b : Byte) : Decidable (isUpper b) := by
  unfold isUpper
  infer_instance

instance (s : GoStr) : Decidable (upperStr s) := by
  unfold upperStr
  exact List.decidableBAll _ s

/-- Range bounds of the Go types: each counter is a uint32 value and the
total is a uint64 value.  Every ProteinProfile the Go program can hold
satisfies this. -/
def inRange (p : ProteinProfile) : Prop :=
  (∀ i, p.Profile i < 2 ^ 32) ∧ p.Sum < 2 ^ 64

/-- Model of a Go float64 value: NaN, the two infinities, or a finite
value carried exactly as a rational. -/
inductive GoFloat
  | nan
  | posInf
  | negInf
  | finite (q : ℚ)
deriving DecidableEq

/-- Go float64 negation. -/
def goNeg : GoFloat → GoFloat
  | .nan => .nan
  | .posInf => .negInf
  | .negInf => .posInf
  | .finite q => .finite (-q)

/-- Model of float64(a) / float64(b) for the nonnegative integers a, b
appearing in calculateSimilarity: 0/0 is NaN, x/0 for x > 0 is +Inf, and
the finite quotients are carried exactly (the integer-to-float conversions
are exact below 2 ^ 53, which covers every case the theorems use). -/
def goDivNat (a b : Nat) : GoFloat :=
  if b = 0 then (if a = 0 then .nan else .posInf)
  else .finite ((a : ℚ) / (b : ℚ))

/-- IEEE comparison x > y on modelled float64 values: any comparison with
NaN is false. -/
def goGt : GoFloat → GoFloat → Bool
  | .nan, _ => false
  | _, .nan => false
  | .posInf, .posInf => false
  | .posInf, _ => true
  | .negInf, _ => false
  | .finite _, .posInf => false
  | .finite _, .negInf => true
  | .finite a, .finite b => decide (b < a)

/-- The sumMin loop of calculateSimilarity: iterate i over 0..675, adding
the smaller of the two counters at i into a uint64 accumulator (each
addition wraps modulo 2 ^ 64 as a uint64 operation does). -/
def simSumMin (X Y : ProteinProfile) : Nat :=
  (List.range 676).foldl
    (fun acc i =>
      if h : i < 676 then
        (acc + min (X.Profile ⟨i, h⟩) (Y.Profile ⟨i, h⟩)) % 2 ^ 64
      else acc)
    0

/-- Translation of calculateSimilarity: sumMin is the uint64 sum of the
pointwise minima of the two count arrays, sumMax = X.Sum + Y.Sum - sumMin
in wrapping uint64 arithmetic, and the result is
float64(sumMin) / float64(sumMax). -/
def calculateSimilarity (X Y : ProteinProfile) : GoFloat :=
  let sMin := simSumMin X Y
  let sMax := ((X.Sum + Y.Sum) % 2 ^ 64 + 2 ^ 64 - sMin) % 2 ^ 64
  goDivNat sMin sMax

/-- List of adjacent byte pairs of a string: the pairs visited by the
window of the buildProfile loop. -/
def adjPairs : List Byte → List (Byte × Byte)
  | [] => []
  | [_] => []
  | a :: b :: rest => (a, b) :: adjPairs (b :: rest)

/-- Projection of a finite modelled float64 to its rational value (junk 0
on NaN and the infinities; used only where finiteness is known or part of
the statement). -/
def qval : GoFloat → ℚ
  | .finite q => q
  | _ => 0

/-- Decidable finiteness test for a modelled float64. -/
def isFiniteF : GoFloat → Bool
  | .finite _ => true
  | _ => false

/-- Well-formedness of a profile as the Go program can ever produce one:
the stored total equals the sum of the 676 counters and each counter is a
uint32 value. -/
def goodProfile (p : ProteinProfile) : Prop :=
  p.Sum = sumCounts p ∧ ∀ i, p.Profile i < 2 ^ 32

/-!  Parallel batch construction (buildProfilesParallel).

Each goroutine writes buildProfile(sequences[index]) into the disjoint
slot profiles[index] of a pre-sized output slice and the WaitGroup
blocks the caller until every goroutine has finished.  The model makes
the scheduling explicit: an execution is the sequence of slot indices in
the order the goroutines complete their writes; a panic inside a
goroutine crashes the program (none).  The function itself is the
execution in index order; the theorems show the outcome is the same for
every execution order that runs each goroutine. -/

/-- Run the goroutines of one batch in the given completion order. -/
def execProfiles (sequences : List GoStr) :
    List ProteinProfile → List Nat → Option (List ProteinProfile)
  | slots, [] => some slots
  | slots, i :: rest =>
    match buildProfile (sequences.getD i []) with
    | none => none
    | some p => execProfiles sequences (slots.set i p) rest

/-- Translation of buildProfilesParallel: pre-size the output to
len(sequences) slots and run one goroutine per index.  maxGoroutines
only limits how many run at once and startIndex is not used by the Go
function body; neither affects the result. -/
def buildProfilesParallel (sequences : List GoStr)
    (maxGoroutines startIndex : Nat) : Option (List ProteinProfile) :=
  execProfiles sequences (List.replicate sequences.length zeroProfile)
    (List.range sequences.length)

/-!  Chunked ingestion (processFileInChunks).

The record source is modelled as the list of text lines the scanner
yields.  File-open and scanner errors are external collaborators outside
the embedded loop. -/

/-- Test of strings.HasPrefix(line, ">"): the first byte is 62. -/
def isMarker (l : GoStr) : Bool :=
  match l with
  | [] => false
  | b :: _ => decide (b.val = 62)

/-- Loop state of processFileInChunks. -/
structure ScanState where
  allNames : List GoStr
  allProfiles : List ProteinProfile
  chunkNames : List GoStr
  chunkSeqs : List GoStr
  currentName : GoStr
  currentSequence : GoStr
  totalProcessed : Nat

/-- Initial loop state (empty accumulators, empty current name and
sequence builder, zero processed count). -/
def initState : ScanState := ⟨[], [], [], [], [], [], 0⟩

/-- Per-line state update of the scanner loop body, before the chunk-size
check: a marker line finalizes the in-flight record (if a name is set)
and starts a new one; any other line is appended to the sequence
builder. -/
def scanLine (st : ScanState) (line : GoStr) : ScanState :=
  if isMarker line then
    if st.currentName.isEmpty then { st with currentName := line }
    else
      { st with
        chunkNames := st.chunkNames ++ [st.currentName]
        chunkSeqs := st.chunkSeqs ++ [st.currentSequence]
        currentSequence := []
        currentName := line }
  else { st with currentSequence := st.currentSequence ++ line }

/-- Flush of a full (or final partial) chunk: build the chunk's profiles
in parallel, append names and profiles to the global table, advance the
running offset, clear the chunk. -/
def flushChunk (maxG : Nat) (st : ScanState) : Option ScanState :=
  match buildProfilesParallel st.chunkSeqs maxG st.totalProcessed with
  | none => none
  | some profs =>
    some
      { st with
        allNames := st.allNames ++ st.chunkNames
        allProfiles := st.allProfiles ++ profs
        totalProcessed := st.totalProcessed + st.chunkSeqs.length
        chunkNames := []
        chunkSeqs := [] }

/-- The scanner loop of processFileInChunks over the remaining lines,
followed by the post-loop finalization: the in-flight record (if any) is
queued and a nonempty partial chunk is flushed through the same batch
path. -/
def processLines (chunkSize maxG : Nat) :
    List GoStr → ScanState → Option (List GoStr × List ProteinProfile)
  | [], st =>
    let st1 :=
      if st.currentName.isEmpty then st
      else
        { st with
          chunkNames := st.chunkNames ++ [st.currentName]
          chunkSeqs := st.chunkSeqs ++ [st.currentSequence] }
    if st1.chunkSeqs.isEmpty then some (st1.allNames, st1.allProfiles)
    else
      match flushChunk maxG st1 with
      | none => none
      | some st2 => some (st2.allNames, st2.allProfiles)
  | line :: rest, st =>
    let st1 := scanLine st line
    if chunkSize ≤ st1.chunkSeqs.length then
      match flushChunk maxG st1 with
      | none => none
      | some st2 => processLines chunkSize maxG rest st2
    else processLines chunkSize maxG rest st1

/-- Translation of processFileInChunks on the lines yielded by the
scanner. -/
def processFileInChunks (lines : List GoStr) (chunkSize maxG : Nat) :
    Option (List GoStr × List ProteinProfile) :=
  processLines chunkSize maxG lines initState

/-- Canonical closed form of the scanner state machine: the (name,
sequence) records the loop finalizes, given the in-flight name and
sequence builder.  Mirrors the loop exactly (note that a first marker
finalizes nothing and does not reset the builder). -/
def records : List GoStr → GoStr → GoStr → List (GoStr × GoStr)
  | [], curName, curSeq => if curName.isEmpty then [] else [(curName, curSeq)]
  | line :: rest, curName, curSeq =>
    if isMarker line then
      if curName.isEmpty then records rest line curSeq
      else (curName, curSeq) :: records rest line []
    else records rest curName (curSeq ++ line)

/-- Concatenation of lines with no separator. -/
def joinLines (ls : List GoStr) : GoStr := ls.flatten

/-- Modelled from the claim wording (the specification side of C2, to be
compared with the implementation): one record per marker line, the i-th
record's name is the i-th marker line and its sequence is the
concatenation of the non-marker lines strictly between that marker and
the next marker (or the end of input). -/
def specRecords : List GoStr → List (GoStr × GoStr)
  | [] => []
  | line :: rest =>
    if isMarker line then
      (line, joinLines (rest.takeWhile (fun l => !isMarker l))) ::
        specRecords rest
    else specRecords rest

/-!  Top-K selection (MaxHeap and findTop100Similar).

The Go code uses container/heap on a slice ordered by
Less(i, j) = h[i].similarity > h[j].similarity, pushing each table entry
with its similarity negated.  The sift-up / sift-down routines of
container/heap are translated literally on lists. -/

/-- Translation of the struct ProteinSimilarity. -/
structure ProteinSimilarity where
  similarity : GoFloat
  name : GoStr
deriving DecidableEq

instance : Inhabited ProteinSimilarity := ⟨⟨.nan, []⟩⟩

/-- The MaxHeap Less method: float64 comparison of the similarity
fields. -/
def psLess (x y : ProteinSimilarity) : Bool := goGt x.similarity y.similarity

/-- Slice read h[i] (always in bounds in the Go code paths modelled
here). -/
def psGetD (l : List ProteinSimilarity) (i : Nat) : ProteinSimilarity :=
  l.getD i default

/-- The Swap method of the heap interface. -/
def lswap (l : List ProteinSimilarity) (i j : Nat) : List ProteinSimilarity :=
  (l.set i (psGetD l j)).set j (psGetD l i)

/-- A heap entry with a finite (non-NaN, non-infinite) stored
similarity. -/
def psFin (x : ProteinSimilarity) : Prop := isFiniteF x.similarity = true

/-- All entries of a heap slice are finite. -/
def allFin (l : List ProteinSimilarity) : Prop := ∀ x ∈ l, psFin x

/-- The container/heap ordering invariant on the first n entries: no
entry sorts before its parent. -/
def heapInvN (l : List ProteinSimilarity) (n : Nat) : Prop :=
  ∀ j, 0 < j → j < n → psLess (psGetD l j) (psGetD l ((j - 1) / 2)) = false

/-- The container/heap ordering invariant on a whole slice. -/
def heapInv (l : List ProteinSimilarity) : Prop := heapInvN l l.length

/-- Undo the negation applied when an entry is pushed (and again when it
is drained). -/
def psUnneg (x : ProteinSimilarity) : ProteinSimilarity :=
  ⟨goNeg x.similarity, x.name⟩

/-- The (score, name) pair a heap entry stands for: the stored similarity
negated back. -/
def psScored (x : ProteinSimilarity) : ℚ × GoStr :=
  (qval (goNeg x.similarity), x.name)

/-- The heap entries the scoring loop pushes for a table. -/
def pushItems (newP : ProteinProfile) (ps : List ProteinProfile)
    (ns : List GoStr) : List ProteinSimilarity :=
  List.zipWith (fun p nm => ⟨goNeg (calculateSimilarity newP p), nm⟩) ps ns

/-- The loop of the up routine of container/heap, with an explicit
iteration budget (the loop moves strictly towards the root, so a budget
of j suffices; the budget makes the recursion structural and the
function kernel-computable). -/
def siftUpF : Nat → List ProteinSimilarity → Nat → List ProteinSimilarity
  | 0, l, _ => l
  | fuel + 1, l, j =>
    if j = 0 then l
    else
      let i := (j - 1) / 2
      if psLess (psGetD l j) (psGetD l i) then siftUpF fuel (lswap l i j) i else l

/-- The up routine of container/heap: bubble index j towards the root
while it sorts before its parent. -/
def siftUp (l : List ProteinSimilarity) (j : Nat) : List ProteinSimilarity :=
  siftUpF (j + 1) l j

/-- The loop of the down routine of container/heap on the first n
entries, with an explicit iteration budget (the index moves strictly
down, so a budget of n suffices). -/
def siftDownF : Nat → List ProteinSimilarity → Nat → Nat → List ProteinSimilarity
  | 0, l, _, _ => l
  | fuel + 1, l, i, n =>
    if 2 * i + 1 < n then
      let j :=
        if 2 * i + 2 < n ∧ psLess (psGetD l (2 * i + 2)) (psGetD l (2 * i + 1)) = true
        then 2 * i + 2 else 2 * i + 1
      if psLess (psGetD l j) (psGetD l i) then siftDownF fuel (lswap l i j) j n
      else l
    else l

/-- The down routine of container/heap on the first n entries: sink index
i below its Less-first child while that child sorts before it. -/
def siftDown (l : List ProteinSimilarity) (i n : Nat) : List ProteinSimilarity :=
  siftDownF n l i n

/-- heap.Init: sift every internal node down, last first.  The selector
calls it on the empty heap, where it is the identity. -/
def heapInit (l : List ProteinSimilarity) : List ProteinSimilarity :=
  (List.range (l.length / 2)).reverse.foldl (fun acc i => siftDown acc i l.length) l

/-- heap.Push: append, then sift the new last element up. -/
def heapPush (l : List ProteinSimilarity) (x : ProteinSimilarity) : List ProteinSimilarity :=
  siftUp (l ++ [x]) l.length

/-- heap.Pop on a nonempty heap: swap the root with the last element,
sift the new root down over the first n-1 entries, then remove and
return the last element (the old root). -/
def heapPop (l : List ProteinSimilarity) : ProteinSimilarity × List ProteinSimilarity :=
  let n := l.length - 1
  let l2 := siftDown (lswap l 0 n) 0 n
  (psGetD l2 n, l2.take n)

/-- The scoring loop of findTop100Similar: for each table entry, push the
negated similarity with the entry's name, then pop the heap root whenever
the heap has grown beyond topN.  Walking names alongside profiles models
the names[i] access, which panics when i is out of range of names. -/
def top100Scan (newP : ProteinProfile) (topN : Nat) :
    List ProteinProfile → List GoStr → List ProteinSimilarity →
      Option (List ProteinSimilarity)
  | [], _, h => some h
  | _ :: _, [], _ => none
  | p :: ps, nm :: nms, h =>
    let h1 := heapPush h ⟨goNeg (calculateSimilarity newP p), nm⟩
    let h2 := if topN < h1.length then (heapPop h1).2 else h1
    top100Scan newP topN ps nms h2

/-- The result loop of findTop100Similar: pop until the heap is empty,
negating each popped similarity back. -/
def drainAux : Nat → List ProteinSimilarity → List ProteinSimilarity
  | 0, _ => []
  | fuel + 1, l =>
    if l.isEmpty then []
    else
      ⟨goNeg (heapPop l).1.similarity, (heapPop l).1.name⟩ ::
        drainAux fuel (heapPop l).2

/-- Translation of findTop100Similar: profile the query, score every
table entry against it keeping the topN best in the bounded heap, then
drain the heap into the result list. -/
def findTop100Similar (newSeq : GoStr) (profiles : List ProteinProfile)
    (names : List GoStr) (topN : Nat) : Option (List ProteinSimilarity) :=
  match buildProfile newSeq with
  | none => none
  | some newP =>
    match top100Scan newP topN profiles names (heapInit []) with
    | none => none
    | some h => some (drainAux h.length h)

/-- The scored table: similarity of each table entry to the query profile
(as its exact rational value) paired with the entry's name. -/
def scoredTable (qp : ProteinProfile) (profiles : List ProteinProfile)
    (names : List GoStr) : List (ℚ × GoStr) :=
  List.zipWith (fun p nm => (qval (calculateSimilarity qp p), nm)) profiles names

/-- Scores and names of a selector result list. -/
def resultScored (res : List ProteinSimilarity) : List (ℚ × GoStr) :=
  res.map fun x => (qval x.similarity, x.name)

/-- A sample well-formed profile (one bigram, total 1), used by concrete
witnesses. -/
def sampleProfile : ProteinProfile := ⟨Function.update (fun _ => 0) 1 1, 1⟩

/-- Modelled from the claim wording (the specification side of C3's
refinement): the sequential map of the Profiler over the inputs, failing
if any single profiling operation fails. -/
def mapProfiles : List GoStr → Option (List ProteinProfile)
  | [] => some []
  | s :: rest =>
    match buildProfile s, mapProfiles rest with
    | some p, some r => some (p :: r)
    | _, _ => none

/-- Concatenation of the non-marker lines preceding the first marker
line (the scanner folds these into the first record's sequence). -/
def leadJunk (lines : List GoStr) : GoStr :=
  joinLines (lines.takeWhile (fun l => !isMarker l))

/-- Prefix the first record's sequence with the given bytes. -/
def patchFirst (j : GoStr) : List (GoStr × GoStr) → List (GoStr × GoStr)
  | [] => []
  | (n, s) :: rest => (n, j ++ s) :: rest

section FoldLemmas

/-- Folding an accumulate-then-reduce step is the reduced plain sum. -/
theorem foldl_add_mod (m : Nat) (g : Nat → Nat) :
    ∀ (l : List Nat) (a : Nat), a < m →
      l.foldl (fun acc i => (acc + g i) % m) a = (a + (l.map g).sum) % m := by
  intro l
  induction l with
  | nil => intro a ha; simp [Nat.mod_eq_of_lt ha]
  | cons x xs ih =>
    intro a ha
    have hm : 0 < m := Nat.pos_of_ne_zero (by omega)
    simp only [List.foldl_cons, List.map_cons, List.sum_cons]
    rw [ih _ (Nat.mod_lt _ hm), Nat.mod_add_mod, Nat.add_assoc]

/-- Folding plain additions is the plain sum. -/
theorem foldl_add_eq (g : Nat → Nat) :
    ∀ (l : List Nat) (a : Nat),
      l.foldl (fun acc i => acc + g i) a = a + (l.map g).sum := by
  intro l
  induction l with
  | nil => simp
  | cons x xs ih => intro a; simp only [List.foldl_cons, List.map_cons, List.sum_cons]; rw [ih]; ring

/-- Sum of a mapped range as a Finset sum. -/
theorem range_map_sum (g : Nat → Nat) :
    ∀ n, ((List.range n).map g).sum = ∑ i ∈ Finset.range n, g i := by
  intro n
  induction n with
  | zero => simp
  | succ n ih => rw [List.range_succ, Finset.sum_range_succ]; simp [ih]

/-- The bounds-checked body used by the 676-entry loops, as a total
function on Nat. -/
theorem dite_body_eq (F : Fin 676 → Nat) :
    (fun (acc i : Nat) => if h : i < 676 then acc + F ⟨i, h⟩ else acc)
      = fun acc i => acc + (if h : i < 676 then F ⟨i, h⟩ else 0) := by
  funext acc i
  by_cases h : i < 676 <;> simp [h]

/-- Fin-indexed closed form of a bounds-checked fold over range 676. -/
theorem range676_map_sum (F : Fin 676 → Nat) :
    ((List.range 676).map fun i => if h : i < 676 then F ⟨i, h⟩ else 0).sum
      = ∑ i : Fin 676, F i := by
  rw [range_map_sum, ← Fin.sum_univ_eq_sum_range (fun i => if h : i < 676 then F ⟨i, h⟩ else 0)]
  refine Finset.sum_congr rfl ?_
  intro i _
  simp [i.isLt]

/-- Closed form of the sumMin loop. -/
theorem simSumMin_eq (X Y : ProteinProfile) :
    simSumMin X Y = (∑ i : Fin 676, min (X.Profile i) (Y.Profile i)) % 2 ^ 64 := by
  unfold simSumMin
  rw [List.foldl_ext _
    (fun acc i => (acc + (if h : i < 676 then min (X.Profile ⟨i, h⟩) (Y.Profile ⟨i, h⟩) else 0)) % 2 ^ 64)
    0 (by intro a b hb; simp only [List.mem_range] at hb; simp [hb])]
  rw [foldl_add_mod _ _ _ _ (by norm_num),
    range676_map_sum (fun i => min (X.Profile i) (Y.Profile i))]
  simp

/-- Closed form of sumCounts. -/
theorem sumCounts_eq (p : ProteinProfile) :
    sumCounts p = ∑ i : Fin 676, p.Profile i := by
  unfold sumCounts
  rw [dite_body_eq, foldl_add_eq, range676_map_sum]
  simp

end FoldLemmas

section BuildProfileLemmas

/-- The index derived from two uppercase letters is in array bounds. -/
theorem bigramIndex_lt (c1 c2 : Byte) (h1 : isUpper c1) (h2 : isUpper c2) :
    bigramIndex c1 c2 < 676 := by
  obtain ⟨a1, b1⟩ := h1
  obtain ⟨a2, b2⟩ := h2
  unfold bigramIndex
  omega

/-- Success and total of the buildProfile loop on uppercase input. -/
theorem buildAux_sum :
    ∀ (rest : List Byte) (c : Byte) (p : ProteinProfile), isUpper c →
      upperStr rest → p.Sum < 2 ^ 64 →
      ∃ q, buildAux c rest p = some q ∧ q.Sum = (p.Sum + rest.length) % 2 ^ 64 := by
  intro rest
  induction rest with
  | nil =>
    intro c p hc hr hp
    refine ⟨p, rfl, ?_⟩
    rw [List.length_nil, Nat.add_zero, Nat.mod_eq_of_lt hp]
  | cons c2 rest ih =>
    intro c p hc hr hp
    have hc2 : isUpper c2 := hr c2 (by simp)
    have hidx : bigramIndex c c2 < 676 := bigramIndex_lt _ _ hc hc2
    have hbump : (bumpProfile p ⟨bigramIndex c c2, hidx⟩).Sum < 2 ^ 64 :=
      Nat.mod_lt _ (by norm_num)
    obtain ⟨q, hq, hsum⟩ :=
      ih c2 (bumpProfile p ⟨bigramIndex c c2, hidx⟩) hc2
        (fun b hb => hr b (List.mem_cons_of_mem _ hb)) hbump
    refine ⟨q, ?_, ?_⟩
    · unfold buildAux
      rw [dif_pos hidx]
      exact hq
    · rw [hsum]
      unfold bumpProfile
      simp only [List.length_cons, Nat.mod_add_mod]
      congr 1
      omega

/-- Effect of one counter increment on the counter sum, when the counter
does not wrap. -/
theorem sumCounts_bump (p : ProteinProfile) (idx : Fin 676)
    (h : p.Profile idx + 1 < 2 ^ 32) :
    sumCounts (bumpProfile p idx) = sumCounts p + 1 := by
  rw [sumCounts_eq, sumCounts_eq]
  unfold bumpProfile
  simp only []
  rw [Nat.mod_eq_of_lt h]
  rw [← Finset.add_sum_erase _ _ (Finset.mem_univ idx),
    ← Finset.add_sum_erase _ p.Profile (Finset.mem_univ idx)]
  rw [Function.update_same]
  have herase :
      ∑ i ∈ Finset.univ.erase idx, Function.update p.Profile idx (p.Profile idx + 1) i
        = ∑ i ∈ Finset.univ.erase idx, p.Profile i := by
    refine Finset.sum_congr rfl ?_
    intro i hi
    exact Function.update_noteq (Finset.ne_of_mem_erase hi) _ _
  rw [herase]
  ring

/-- Invariant preservation through the buildProfile loop on uppercase
input short enough that no uint32 counter wraps: the loop succeeds, the
total tracks the counter sum, every counter is bounded by the total, and
the total grows by the number of remaining window positions. -/
theorem buildAux_good :
    ∀ (rest : List Byte) (c : Byte) (p : ProteinProfile), isUpper c →
      upperStr rest → sumCounts p = p.Sum → (∀ i, p.Profile i ≤ p.Sum) →
      p.Sum + rest.length < 2 ^ 32 →
      ∃ q, buildAux c rest p = some q ∧ sumCounts q = q.Sum ∧
        (∀ i, q.Profile i ≤ q.Sum) ∧ q.Sum = p.Sum + rest.length := by
  intro rest
  induction rest with
  | nil =>
    intro c p hc hr hinv hbd hlen
    exact ⟨p, rfl, hinv, hbd, by simp⟩
  | cons c2 rest ih =>
    intro c p hc hr hinv hbd hlen
    have hc2 : isUpper c2 := hr c2 (by simp)
    have hidx : bigramIndex c c2 < 676 := bigramIndex_lt _ _ hc hc2
    set idx : Fin 676 := ⟨bigramIndex c c2, hidx⟩ with hidxdef
    have hclen : (c2 :: rest).length = rest.length + 1 := rfl
    have hcw : p.Profile idx + 1 < 2 ^ 32 := by
      have := hbd idx
      simp only [hclen] at hlen
      omega
    have hsw : p.Sum + 1 < 2 ^ 64 := by
      simp only [hclen] at hlen
      have h32 : (2 : Nat) ^ 32 < 2 ^ 64 := by norm_num
      omega
    have hSum : (bumpProfile p idx).Sum = p.Sum + 1 := by
      unfold bumpProfile
      simp only []
      exact Nat.mod_eq_of_lt (by omega)
    have hProfeq : sumCounts (bumpProfile p idx) = (bumpProfile p idx).Sum := by
      rw [sumCounts_bump p idx hcw, hSum, hinv]
    have hbd2 : ∀ i, (bumpProfile p idx).Profile i ≤ (bumpProfile p idx).Sum := by
      intro i
      rw [hSum]
      unfold bumpProfile
      simp only []
      by_cases hieq : i = idx
      · subst hieq
        rw [Function.update_same, Nat.mod_eq_of_lt hcw]
        exact Nat.add_le_add_right (hbd idx) 1
      · rw [Function.update_noteq hieq]
        exact Nat.le_succ_of_le (hbd i)
    have hlen2 : (bumpProfile p idx).Sum + rest.length < 2 ^ 32 := by
      rw [hSum]
      simp only [hclen] at hlen
      omega
    obtain ⟨q, hq, hqinv, hqbd, hqsum⟩ :=
      ih c2 (bumpProfile p idx) hc2
        (fun b hb => hr b (List.mem_cons_of_mem _ hb)) hProfeq hbd2 hlen2
    refine ⟨q, ?_, hqinv, hqbd, ?_⟩
    · unfold buildAux
      rw [dif_pos hidx]
      exact hq
    · rw [hqsum, hSum, hclen]
      omega

/-- The counter sum of the zero profile is 0. -/
theorem sumCounts_zero : sumCounts zeroProfile = 0 := by
  rw [sumCounts_eq]
  simp [zeroProfile]

/-- buildProfile on an uppercase string succeeds, and when no uint32
counter can wrap the result is well formed with total length - 1. -/
theorem buildProfile_good (s : GoStr) (hs : upperStr s)
    (hlen : s.length ≤ 2 ^ 32) :
    ∃ p, buildProfile s = some p ∧ goodProfile p ∧ p.Sum = s.length - 1 := by
  cases s with
  | nil =>
    refine ⟨zeroProfile, rfl, ⟨sumCounts_zero.symm, ?_⟩, rfl⟩
    intro i
    simp [zeroProfile]
  | cons c rest =>
    have hc : isUpper c := hs c (by simp)
    have hrest : upperStr rest := fun b hb => hs b (List.mem_cons_of_mem _ hb)
    have hlen2 : zeroProfile.Sum + rest.length < 2 ^ 32 := by
      simp only [zeroProfile, List.length_cons] at hlen ⊢
      omega
    have hinv0 : sumCounts zeroProfile = zeroProfile.Sum := by
      rw [sumCounts_zero]
      rfl
    obtain ⟨q, hq, hqinv, hqbd, hqsum⟩ :=
      buildAux_good rest c zeroProfile hc hrest hinv0
        (fun i => by simp [zeroProfile]) hlen2
    have hzs : zeroProfile.Sum = 0 := rfl
    refine ⟨q, hq, ⟨hqinv.symm, ?_⟩, ?_⟩
    · intro i
      have h1 := hqbd i
      have h2 : q.Sum < 2 ^ 32 := by
        rw [hqsum, hzs] at *
        omega
      omega
    · rw [hqsum, hzs]
      simp

end BuildProfileLemmas

section ProfilerClaims

/-- C5: for every uppercase sequence S (of a length a Go int can hold),
buildProfile(S) succeeds with total max(0, length(S) - 1) (natural
subtraction), and every S shorter than 2 characters yields the all-zero
profile with total 0. -/
theorem buildProfile_total_length (s : GoStr) (hs : upperStr s)
    (hlen : s.length < 2 ^ 63) :
    ∃ p, buildProfile s = some p ∧ p.Sum = s.length - 1 ∧
      (s.length < 2 → p = zeroProfile) := by
  cases s with
  | nil => exact ⟨zeroProfile, rfl, rfl, fun _ => rfl⟩
  | cons c rest =>
    have hc : isUpper c := hs c (by simp)
    have hrest : upperStr rest := fun b hb => hs b (List.mem_cons_of_mem _ hb)
    obtain ⟨q, hq, hsum⟩ :=
      buildAux_sum rest c zeroProfile hc hrest (by norm_num [zeroProfile])
    refine ⟨q, hq, ?_, ?_⟩
    · rw [hsum]
      have hz : zeroProfile.Sum = 0 := rfl
      rw [hz, Nat.zero_add, List.length_cons, Nat.add_sub_cancel]
      exact Nat.mod_eq_of_lt (by simp only [List.length_cons] at hlen; omega)
    · intro h2
      simp only [List.length_cons] at h2
      have : rest = [] := List.length_eq_zero.mp (by omega)
      subst this
      have : buildAux c [] zeroProfile = some zeroProfile := rfl
      rw [this] at hq
      exact (Option.some_inj.mp hq).symm

/-- Witness for C5 at the concrete uppercase string AB. -/
theorem buildProfile_total_length_witness :
    upperStr ([65, 66] : GoStr) ∧ ([65, 66] : GoStr).length < 2 ^ 63 ∧
      ∃ p, buildProfile ([65, 66] : GoStr) = some p ∧
        p.Sum = ([65, 66] : GoStr).length - 1 ∧
        (([65, 66] : GoStr).length < 2 → p = zeroProfile) :=
  ⟨by decide, by decide, buildProfile_total_length _ (by decide) (by decide)⟩

/-- Both components of an adjacent pair are characters of the string. -/
theorem adjPairs_mem :
    ∀ (s : List Byte) (pr : Byte × Byte), pr ∈ adjPairs s →
      pr.1 ∈ s ∧ pr.2 ∈ s := by
  intro s
  induction s with
  | nil => intro pr h; simp [adjPairs] at h
  | cons a t ih =>
    intro pr h
    cases t with
    | nil => simp [adjPairs] at h
    | cons b u =>
      rw [adjPairs] at h
      rcases List.mem_cons.mp h with heq | hmem
      · subst heq
        exact ⟨by simp, by simp⟩
      · obtain ⟨h1, h2⟩ := ih pr hmem
        exact ⟨List.mem_cons_of_mem _ h1, List.mem_cons_of_mem _ h2⟩

/-- C10: on a sequence of bytes in A..Z, every index buildProfile computes
for an adjacent pair is within the 676-entry array, and buildProfile never
panics (returns some). -/
theorem buildProfile_index_safe (s : GoStr) (hs : upperStr s) :
    (∀ pr ∈ adjPairs s, bigramIndex pr.1 pr.2 < 676) ∧
      ∃ p, buildProfile s = some p := by
  constructor
  · intro pr hpr
    obtain ⟨h1, h2⟩ := adjPairs_mem s pr hpr
    exact bigramIndex_lt _ _ (hs _ h1) (hs _ h2)
  · cases s with
    | nil => exact ⟨zeroProfile, rfl⟩
    | cons c rest =>
      obtain ⟨q, hq, _⟩ :=
        buildAux_sum rest c zeroProfile (hs c (by simp))
          (fun b hb => hs b (List.mem_cons_of_mem _ hb))
          (by norm_num [zeroProfile])
      exact ⟨q, hq⟩

/-- Witness for C10 at the concrete uppercase string AB. -/
theorem buildProfile_index_safe_witness :
    upperStr ([65, 66] : GoStr) ∧
      ((∀ pr ∈ adjPairs ([65, 66] : GoStr), bigramIndex pr.1 pr.2 < 676) ∧
        ∃ p, buildProfile ([65, 66] : GoStr) = some p) :=
  ⟨by decide, buildProfile_index_safe _ (by decide)⟩

end ProfilerClaims

section SimilarityClaims

/-- Unfolding of calculateSimilarity. -/
theorem calculateSimilarity_def (X Y : ProteinProfile) :
    calculateSimilarity X Y =
      goDivNat (simSumMin X Y)
        (((X.Sum + Y.Sum) % 2 ^ 64 + 2 ^ 64 - simSumMin X Y) % 2 ^ 64) := rfl

/-- Bound on the counter sum of a profile whose counters are uint32
values. -/
theorem sumCounts_le (p : ProteinProfile) (h : ∀ i, p.Profile i < 2 ^ 32) :
    sumCounts p ≤ 676 * (2 ^ 32 - 1) := by
  rw [sumCounts_eq]
  calc ∑ i : Fin 676, p.Profile i
      ≤ ∑ _i : Fin 676, (2 ^ 32 - 1) :=
        Finset.sum_le_sum fun i _ => Nat.le_sub_one_of_lt (h i)
    _ = 676 * (2 ^ 32 - 1) := by
        rw [Finset.sum_const, Finset.card_univ, Fintype.card_fin, smul_eq_mul]

/-- C7: self-similarity of a well-formed profile with positive total is
exactly 1. -/
theorem calculateSimilarity_self (X : ProteinProfile) (hgood : goodProfile X)
    (hpos : 0 < X.Sum) : calculateSimilarity X X = GoFloat.finite 1 := by
  obtain ⟨hinv, hbd⟩ := hgood
  have hS : X.Sum ≤ 676 * (2 ^ 32 - 1) := by
    rw [hinv]
    exact sumCounts_le X hbd
  have hS64 : X.Sum < 2 ^ 64 := by
    have : (676 : Nat) * (2 ^ 32 - 1) < 2 ^ 64 := by norm_num
    omega
  have h2S : X.Sum + X.Sum < 2 ^ 64 := by
    have : (676 : Nat) * (2 ^ 32 - 1) + 676 * (2 ^ 32 - 1) < 2 ^ 64 := by norm_num
    omega
  rw [calculateSimilarity_def, simSumMin_eq]
  have hmins : (∑ i : Fin 676, min (X.Profile i) (X.Profile i)) = X.Sum := by
    rw [hinv, sumCounts_eq]
    exact Finset.sum_congr rfl fun i _ => min_self _
  rw [hmins, Nat.mod_eq_of_lt hS64, Nat.mod_eq_of_lt h2S]
  have harith : X.Sum + X.Sum + 2 ^ 64 - X.Sum = X.Sum + 2 ^ 64 := by omega
  rw [harith, Nat.add_mod_right, Nat.mod_eq_of_lt hS64]
  unfold goDivNat
  rw [if_neg (by omega)]
  have hq : ((X.Sum : ℚ) / (X.Sum : ℚ)) = 1 :=
    div_self (by exact_mod_cast Nat.pos_iff_ne_zero.mp hpos)
  rw [hq]

/-- C8: similarity of two well-formed profiles with positive totals is a
finite value between 0 and 1. -/
theorem calculateSimilarity_bounded (X Y : ProteinProfile)
    (hXg : goodProfile X) (hYg : goodProfile Y)
    (hx : 0 < X.Sum) (hy : 0 < Y.Sum) :
    ∃ q, calculateSimilarity X Y = GoFloat.finite q ∧ 0 ≤ q ∧ q ≤ 1 := by
  obtain ⟨hXi, hXb⟩ := hXg
  obtain ⟨hYi, hYb⟩ := hYg
  have hSX : X.Sum ≤ 676 * (2 ^ 32 - 1) := by
    rw [hXi]
    exact sumCounts_le X hXb
  have hSY : Y.Sum ≤ 676 * (2 ^ 32 - 1) := by
    rw [hYi]
    exact sumCounts_le Y hYb
  have hBig : (676 : Nat) * (2 ^ 32 - 1) + 676 * (2 ^ 32 - 1) < 2 ^ 64 := by norm_num
  set m := ∑ i : Fin 676, min (X.Profile i) (Y.Profile i) with hm
  have hmX : m ≤ X.Sum := by
    rw [hXi, sumCounts_eq]
    exact Finset.sum_le_sum fun i _ => min_le_left _ _
  have hmY : m ≤ Y.Sum := by
    rw [hYi, sumCounts_eq]
    exact Finset.sum_le_sum fun i _ => min_le_right _ _
  rw [calculateSimilarity_def, simSumMin_eq, ← hm]
  rw [Nat.mod_eq_of_lt (by omega : m < 2 ^ 64),
    Nat.mod_eq_of_lt (by omega : X.Sum + Y.Sum < 2 ^ 64)]
  have harith : X.Sum + Y.Sum + 2 ^ 64 - m = X.Sum + Y.Sum - m + 2 ^ 64 := by
    omega
  rw [harith, Nat.add_mod_right, Nat.mod_eq_of_lt (by omega)]
  unfold goDivNat
  have hden : X.Sum + Y.Sum - m ≠ 0 := by omega
  rw [if_neg hden]
  refine ⟨_, rfl, ?_, ?_⟩
  · exact div_nonneg (Nat.cast_nonneg _) (Nat.cast_nonneg _)
  · rw [div_le_one (by exact_mod_cast Nat.pos_of_ne_zero hden)]
    exact_mod_cast (by omega : m ≤ X.Sum + Y.Sum - m)

/-- Witness for C7 at a concrete well-formed profile. -/
theorem calculateSimilarity_self_witness :
    goodProfile sampleProfile ∧ 0 < sampleProfile.Sum ∧
      calculateSimilarity sampleProfile sampleProfile = GoFloat.finite 1 :=
  ⟨⟨by decide, by decide⟩, by decide,
    calculateSimilarity_self sampleProfile ⟨by decide, by decide⟩ (by decide)⟩

/-- Witness for C8 at concrete well-formed profiles. -/
theorem calculateSimilarity_bounded_witness :
    goodProfile sampleProfile ∧ 0 < sampleProfile.Sum ∧
      ∃ q, calculateSimilarity sampleProfile sampleProfile = GoFloat.finite q ∧
        0 ≤ q ∧ q ≤ 1 :=
  ⟨⟨by decide, by decide⟩, by decide,
    calculateSimilarity_bounded sampleProfile sampleProfile
      ⟨by decide, by decide⟩ ⟨by decide, by decide⟩ (by decide) (by decide)⟩

/-- C9 (amended): on two all-zero profiles the scorer divides 0 by 0 and
deterministically returns NaN; there is no division fault and no other
policy value. -/
theorem calculateSimilarity_degenerate (X Y : ProteinProfile)
    (hX : X.Sum = 0) (hY : Y.Sum = 0)
    (hXp : ∀ i, X.Profile i = 0) (hYp : ∀ i, Y.Profile i = 0) :
    calculateSimilarity X Y = GoFloat.nan := by
  rw [calculateSimilarity_def, simSumMin_eq]
  have hz : (∑ i : Fin 676, min (X.Profile i) (Y.Profile i)) = 0 :=
    Finset.sum_eq_zero fun i _ => by rw [hXp i, hYp i]; exact min_self 0
  rw [hz, hX, hY]
  norm_num [goDivNat]

/-- Counterexample to C9 as stated: at the concrete all-zero input the
scorer returns NaN, not a number fixed by a documented policy (such as
the 0 the spec suggests). -/
theorem calculateSimilarity_no_policy_cex :
    calculateSimilarity zeroProfile zeroProfile = GoFloat.nan ∧
      calculateSimilarity zeroProfile zeroProfile ≠ GoFloat.finite 0 := by
  have h2 : calculateSimilarity zeroProfile zeroProfile = GoFloat.nan := by
    rw [calculateSimilarity_def, simSumMin_eq]
    have hz : (∑ i : Fin 676, min (zeroProfile.Profile i) (zeroProfile.Profile i)) = 0 :=
      Finset.sum_eq_zero fun i _ => rfl
    rw [hz]
    norm_num [goDivNat, zeroProfile]
  refine ⟨h2, ?_⟩
  intro h
  rw [h2] at h
  exact GoFloat.noConfusion h

/-- Witness for the amended C9 at the concrete all-zero profiles. -/
theorem calculateSimilarity_degenerate_witness :
    zeroProfile.Sum = 0 ∧
      calculateSimilarity zeroProfile zeroProfile = GoFloat.nan :=
  ⟨rfl, calculateSimilarity_degenerate zeroProfile zeroProfile rfl rfl
    (fun _ => rfl) (fun _ => rfl)⟩

end SimilarityClaims

section ParallelClaims

/-- When every input profiles successfully, the sequential map succeeds
pointwise. -/
theorem mapProfiles_some :
    ∀ (seqs : List GoStr),
      (∀ j < seqs.length, (buildProfile (seqs.getD j [])).isSome) →
      ∃ r, mapProfiles seqs = some r ∧ r.length = seqs.length ∧
        ∀ j < seqs.length, buildProfile (seqs.getD j []) = some (r.getD j zeroProfile) := by
  intro seqs
  induction seqs with
  | nil =>
    intro h
    exact ⟨[], rfl, rfl, fun j hj => absurd hj (by simp)⟩
  | cons s rest ih =>
    intro h
    have h0 : (buildProfile s).isSome := h 0 (by simp)
    obtain ⟨p, hp⟩ := Option.isSome_iff_exists.mp h0
    obtain ⟨r, hr, hrlen, hrpt⟩ :=
      ih (fun j hj => h (j + 1) (by simp only [List.length_cons]; omega))
    refine ⟨p :: r, ?_, by simp [hrlen], ?_⟩
    · unfold mapProfiles
      rw [hp, hr]
    · intro j hj
      cases j with
      | zero => exact hp
      | succ n =>
        simp only [List.getD_cons_succ]
        exact hrpt n (by simp only [List.length_cons] at hj; omega)

/-- If any input fails to profile, the sequential map fails. -/
theorem mapProfiles_none :
    ∀ (seqs : List GoStr), (∃ s ∈ seqs, buildProfile s = none) →
      mapProfiles seqs = none := by
  intro seqs
  induction seqs with
  | nil => intro h; simp at h
  | cons s rest ih =>
    intro h
    obtain ⟨t, ht, htn⟩ := h
    rcases List.mem_cons.mp ht with rfl | hmem
    · cases hmp : mapProfiles rest <;> simp [mapProfiles, htn, hmp]
    · cases hb : buildProfile s <;> simp [mapProfiles, hb, ih ⟨t, hmem, htn⟩]

/-- Every profile in a successful sequential map is the profile of one of
the inputs. -/
theorem mapProfiles_mem :
    ∀ (seqs : List GoStr) (r : List ProteinProfile), mapProfiles seqs = some r →
      ∀ p ∈ r, ∃ s ∈ seqs, buildProfile s = some p := by
  intro seqs
  induction seqs with
  | nil =>
    intro r hr p hp
    unfold mapProfiles at hr
    obtain rfl := Option.some_inj.mp hr
    simp at hp
  | cons s rest ih =>
    intro r hr p hp
    unfold mapProfiles at hr
    cases hb : buildProfile s with
    | none => rw [hb] at hr; exact absurd hr (by simp)
    | some q =>
      rw [hb] at hr
      cases hmp : mapProfiles rest with
      | none => rw [hmp] at hr; exact absurd hr (by simp)
      | some r2 =>
        rw [hmp] at hr
        obtain rfl := Option.some_inj.mp hr
        rcases List.mem_cons.mp hp with rfl | hmem
        · exact ⟨s, by simp, hb⟩
        · obtain ⟨t, ht, htp⟩ := ih r2 hmp p hmem
          exact ⟨t, List.mem_cons_of_mem _ ht, htp⟩

/-- The sequential map splits over concatenation. -/
theorem mapProfiles_append :
    ∀ (l1 l2 : List GoStr),
      mapProfiles (l1 ++ l2) =
        match mapProfiles l1, mapProfiles l2 with
        | some a, some b => some (a ++ b)
        | _, _ => none := by
  intro l1
  induction l1 with
  | nil =>
    intro l2
    cases h : mapProfiles l2 <;> simp [mapProfiles, h]
  | cons s rest ih =>
    intro l2
    cases hb : buildProfile s <;> cases h1 : mapProfiles rest <;>
      cases h2 : mapProfiles l2 <;>
        simp [mapProfiles, hb, h1, h2, ih l2]

/-- Outcome of a goroutine execution order that stays in range, when
every input profiles successfully: all ordered slots hold their input's
profile and untouched slots keep their initial value. -/
theorem execProfiles_some (seqs : List GoStr) :
    ∀ (order : List Nat) (slots : List ProteinProfile),
      slots.length = seqs.length →
      (∀ j ∈ order, j < seqs.length) →
      (∀ j < seqs.length, (buildProfile (seqs.getD j [])).isSome) →
      ∃ res, execProfiles seqs slots order = some res ∧
        res.length = seqs.length ∧
        (∀ k < seqs.length, k ∈ order →
          buildProfile (seqs.getD k []) = some (res.getD k zeroProfile)) ∧
        (∀ k, k ∉ order → res.getD k zeroProfile = slots.getD k zeroProfile) := by
  intro order
  induction order with
  | nil =>
    intro slots hlen hbound hall
    exact ⟨slots, rfl, hlen, fun k hk hmem => absurd hmem (by simp),
      fun k _ => rfl⟩
  | cons i rest ih =>
    intro slots hlen hbound hall
    have hi : i < seqs.length := hbound i (by simp)
    obtain ⟨p, hp⟩ := Option.isSome_iff_exists.mp (hall i hi)
    obtain ⟨res, hres, hreslen, hpt, huntouched⟩ :=
      ih (slots.set i p) (by rw [List.length_set]; exact hlen)
        (fun j hj => hbound j (List.mem_cons_of_mem _ hj)) hall
    refine ⟨res, ?_, hreslen, ?_, ?_⟩
    · unfold execProfiles
      rw [hp]
      exact hres
    · intro k hk hmem
      rcases List.mem_cons.mp hmem with rfl | hmemr
      · by_cases hkr : k ∈ rest
        · exact hpt k hk hkr
        · have hklen : k < (slots.set k p).length := by
            rw [List.length_set]
            omega
          rw [huntouched k hkr,
            List.getD_eq_getElem (slots.set k p) zeroProfile hklen,
            List.getElem_set_self hklen]
          exact hp
      · exact hpt k hk hmemr
    · intro k hk
      have hknr : k ∉ rest := fun hmem => hk (List.mem_cons_of_mem _ hmem)
      have hkni : k ≠ i := fun heq => hk (heq ▸ List.mem_cons_self i rest)
      rw [huntouched k hknr]
      by_cases hklen : k < slots.length
      · have h1 : k < (slots.set i p).length := by
          rw [List.length_set]
          omega
        rw [List.getD_eq_getElem (slots.set i p) zeroProfile h1,
          List.getElem_set_ne (fun heq => hkni heq.symm) h1,
          List.getD_eq_getElem slots zeroProfile hklen]
      · have h1 : (slots.set i p).length ≤ k := by
          rw [List.length_set]
          omega
        rw [List.getD_eq_default (slots.set i p) zeroProfile h1,
          List.getD_eq_default slots zeroProfile (by omega)]

/-- A goroutine execution crashes whenever an ordered goroutine
panics. -/
theorem execProfiles_fail (seqs : List GoStr) :
    ∀ (order : List Nat) (slots : List ProteinProfile),
      (∃ j ∈ order, buildProfile (seqs.getD j []) = none) →
      execProfiles seqs slots order = none := by
  intro order
  induction order with
  | nil => intro slots h; simp at h
  | cons i rest ih =>
    intro slots h
    obtain ⟨j, hj, hjn⟩ := h
    unfold execProfiles
    rcases List.mem_cons.mp hj with rfl | hmem
    · rw [hjn]
    · cases hb : buildProfile (seqs.getD i []) with
      | none => rfl
      | some p => exact ih _ ⟨j, hmem, hjn⟩

/-- Any execution order that runs every goroutine at least once (and only
goroutines of this batch) produces exactly the sequential map. -/
theorem exec_eq_mapProfiles (seqs : List GoStr) (order : List Nat)
    (hcover : ∀ j < seqs.length, j ∈ order)
    (hbound : ∀ j ∈ order, j < seqs.length) :
    execProfiles seqs (List.replicate seqs.length zeroProfile) order =
      mapProfiles seqs := by
  by_cases hall : ∀ j < seqs.length, (buildProfile (seqs.getD j [])).isSome
  · obtain ⟨res, hres, hreslen, hpt, _⟩ :=
      execProfiles_some seqs order (List.replicate seqs.length zeroProfile)
        (List.length_replicate _ _) hbound hall
    obtain ⟨r, hr, hrlen, hrpt⟩ := mapProfiles_some seqs hall
    rw [hres, hr]
    congr 1
    apply List.ext_getElem (by omega)
    intro n h1 h2
    have e1 := hpt n (by omega) (hcover n (by omega))
    have e2 := hrpt n (by omega)
    rw [e1] at e2
    have e3 := Option.some_inj.mp e2
    rw [List.getD_eq_getElem _ _ h1, List.getD_eq_getElem _ _ h2] at e3
    exact e3
  · push_neg at hall
    obtain ⟨j, hj, hns⟩ := hall
    have hnone : buildProfile (seqs.getD j []) = none :=
      Option.not_isSome_iff_eq_none.mp hns
    rw [execProfiles_fail seqs order _ ⟨j, hcover j hj, hnone⟩]
    rw [mapProfiles_none seqs ⟨seqs.getD j [], ?_, hnone⟩]
    rw [List.getD_eq_getElem _ _ hj]
    exact List.getElem_mem hj

/-- buildProfilesParallel is the sequential map (its goroutines run in
index order in the model; the previous lemma covers every other order,
and neither maxGoroutines nor startIndex is used). -/
theorem buildProfilesParallel_eq (seqs : List GoStr) (g t : Nat) :
    buildProfilesParallel seqs g t = mapProfiles seqs := by
  unfold buildProfilesParallel
  exact exec_eq_mapProfiles seqs (List.range seqs.length)
    (fun j hj => List.mem_range.mpr hj) (fun j hj => List.mem_range.mp hj)

/-- C3: for every input list, concurrency limit N at least 1, start index
and every goroutine completion order, the batch builder returns exactly
the sequential map of the Profiler over the inputs, independent of N and
startIndex. -/
theorem buildProfilesParallel_deterministic (sequences : List GoStr)
    (N startIndex : Nat) (hN : 1 ≤ N) (order : List Nat)
    (hcover : ∀ j < sequences.length, j ∈ order)
    (hbound : ∀ j ∈ order, j < sequences.length) :
    buildProfilesParallel sequences N startIndex = mapProfiles sequences ∧
      execProfiles sequences
          (List.replicate sequences.length zeroProfile) order =
        mapProfiles sequences :=
  ⟨buildProfilesParallel_eq sequences N startIndex,
    exec_eq_mapProfiles sequences order hcover hbound⟩

/-- Witness for C3: two sequences, concurrency limit 2, the goroutines
completing in reverse order. -/
theorem buildProfilesParallel_deterministic_witness :
    1 ≤ 2 ∧ (∀ j < ([[65, 66], [65, 67]] : List GoStr).length, j ∈ [1, 0]) ∧
      (∀ j ∈ [1, 0], j < ([[65, 66], [65, 67]] : List GoStr).length) ∧
      (buildProfilesParallel [[65, 66], [65, 67]] 2 0 =
          mapProfiles [[65, 66], [65, 67]] ∧
        execProfiles [[65, 66], [65, 67]]
            (List.replicate ([[65, 66], [65, 67]] : List GoStr).length zeroProfile)
            [1, 0] =
          mapProfiles [[65, 66], [65, 67]]) :=
  ⟨by decide, by decide, by decide,
    buildProfilesParallel_deterministic [[65, 66], [65, 67]] 2 0 (by decide)
      [1, 0] (by decide) (by decide)⟩

end ParallelClaims

section PipelineLemmas

/-- One scanner step: the global table and the current chunk only ever
grow by the records the state machine finalizes, and the canonical record
list factors through the updated in-flight name and sequence. -/
theorem scanLine_spec (st : ScanState) (line : GoStr) :
    (scanLine st line).allNames = st.allNames ∧
    (scanLine st line).allProfiles = st.allProfiles ∧
    (scanLine st line).totalProcessed = st.totalProcessed ∧
    ∃ pre : List (GoStr × GoStr),
      (scanLine st line).chunkNames = st.chunkNames ++ pre.map Prod.fst ∧
      (scanLine st line).chunkSeqs = st.chunkSeqs ++ pre.map Prod.snd ∧
      ∀ rest : List GoStr,
        records (line :: rest) st.currentName st.currentSequence =
          pre ++ records rest (scanLine st line).currentName
            (scanLine st line).currentSequence := by
  by_cases hm : isMarker line
  · by_cases hn : st.currentName.isEmpty
    · exact ⟨by simp [scanLine, hm, hn], by simp [scanLine, hm, hn],
        by simp [scanLine, hm, hn], [],
        by simp [scanLine, hm, hn], by simp [scanLine, hm, hn],
        fun rest => by simp [scanLine, records, hm, hn]⟩
    · exact ⟨by simp [scanLine, hm, hn], by simp [scanLine, hm, hn],
        by simp [scanLine, hm, hn], [(st.currentName, st.currentSequence)],
        by simp [scanLine, hm, hn], by simp [scanLine, hm, hn],
        fun rest => by simp [scanLine, records, hm, hn]⟩
  · exact ⟨by simp [scanLine, hm], by simp [scanLine, hm],
      by simp [scanLine, hm], [],
      by simp [scanLine, hm], by simp [scanLine, hm],
      fun rest => by simp [scanLine, records, hm]⟩

/-- Closed form of the scanner loop from any state whose chunk name and
sequence accumulators are aligned: the final table is the accumulated
table, plus the aligned chunk, plus the canonical records of the
remaining lines, with all profiles produced by the sequential map. -/
theorem processLines_eq (maxG : Nat) :
    ∀ (lines : List GoStr) (chunkSize : Nat) (st : ScanState),
      st.chunkNames.length = st.chunkSeqs.length →
      processLines chunkSize maxG lines st =
        (mapProfiles (st.chunkSeqs ++
            (records lines st.currentName st.currentSequence).map Prod.snd)).map
          (fun profs =>
            (st.allNames ++ st.chunkNames ++
                (records lines st.currentName st.currentSequence).map Prod.fst,
              st.allProfiles ++ profs)) := by
  intro lines
  induction lines with
  | nil =>
    intro c st hlen
    simp only [processLines]
    by_cases hn : st.currentName.isEmpty
    · simp only [records, hn, if_true]
      by_cases he : st.chunkSeqs.isEmpty
      · have hempty : st.chunkSeqs = [] := List.isEmpty_iff.mp he
        have hnames : st.chunkNames = [] :=
          List.eq_nil_of_length_eq_zero (by rw [hlen, hempty]; rfl)
        simp [hn, he, hempty, hnames, mapProfiles]
      · simp only [hn, if_true, he, if_false]
        unfold flushChunk
        rw [buildProfilesParallel_eq]
        cases hmp : mapProfiles st.chunkSeqs <;> simp [hmp]
    · have hn2 : st.currentName.isEmpty = false := by
        cases h : st.currentName.isEmpty
        · rfl
        · exact absurd h hn
      have hne : (st.chunkSeqs ++ [st.currentSequence]).isEmpty = false := by
        simp
      simp only [records, hn2, Bool.false_eq_true, if_false]
      simp only [hne, Bool.false_eq_true, if_false]
      unfold flushChunk
      rw [buildProfilesParallel_eq]
      cases hmp : mapProfiles (st.chunkSeqs ++ [st.currentSequence]) <;>
        simp [hmp, List.append_assoc]
  | cons line rest ih =>
    intro c st hlen
    obtain ⟨han, hap, hat, pre, hcn, hcs, hrec⟩ := scanLine_spec st line
    have hlen1 : (scanLine st line).chunkNames.length =
        (scanLine st line).chunkSeqs.length := by
      rw [hcn, hcs]
      simp [hlen]
    simp only [processLines]
    rw [hrec rest]
    by_cases hflush : c ≤ (scanLine st line).chunkSeqs.length
    · rw [if_pos hflush]
      unfold flushChunk
      rw [buildProfilesParallel_eq]
      have hsplit : st.chunkSeqs ++
          (pre ++ records rest (scanLine st line).currentName
            (scanLine st line).currentSequence).map Prod.snd =
          (scanLine st line).chunkSeqs ++
            (records rest (scanLine st line).currentName
              (scanLine st line).currentSequence).map Prod.snd := by
        rw [hcs, List.map_append, List.append_assoc]
      rw [hsplit, mapProfiles_append]
      cases hmp : mapProfiles (scanLine st line).chunkSeqs with
      | none => simp
      | some profs =>
        simp only []
        rw [ih c _ (by simp)]
        simp only [List.nil_append]
        cases hmp2 : mapProfiles ((records rest (scanLine st line).currentName
            (scanLine st line).currentSequence).map Prod.snd) with
        | none => simp
        | some r2 =>
          simp only [Option.map_some]
          rw [han, hap, hcn]
          simp [List.map_append, List.append_assoc]
    · rw [if_neg hflush]
      rw [ih c _ hlen1]
      rw [han, hap, hcn, hcs]
      simp [List.map_append, List.append_assoc]

end PipelineLemmas

section ChunkingClaims

/-- C4: the final profile table of the ingestion driver does not depend
on the chunk size (nor on the concurrency limit): same names in the same
order, identical profiles at every index. -/
theorem processFileInChunks_chunk_invariant (lines : List GoStr)
    (c1 c2 g1 g2 : Nat) (h1 : 1 ≤ c1) (h2 : 1 ≤ c2) :
    processFileInChunks lines c1 g1 = processFileInChunks lines c2 g2 := by
  unfold processFileInChunks
  rw [processLines_eq g1 lines c1 initState rfl,
    processLines_eq g2 lines c2 initState rfl]

/-- Witness for C4 at a concrete three-line input and chunk sizes 1
and 7. -/
theorem processFileInChunks_chunk_invariant_witness :
    1 ≤ 1 ∧ 1 ≤ 7 ∧
      processFileInChunks [[62, 65], [65, 66], [62, 66]] 1 3 =
        processFileInChunks [[62, 65], [65, 66], [62, 66]] 7 6 :=
  ⟨by decide, by decide,
    processFileInChunks_chunk_invariant [[62, 65], [65, 66], [62, 66]]
      1 7 3 6 (by decide) (by decide)⟩

end ChunkingClaims

section RecordClaims

/-- A marker line is nonempty. -/
theorem isMarker_isEmpty (l : GoStr) (h : isMarker l = true) :
    l.isEmpty = false := by
  cases l with
  | nil => simp [isMarker] at h
  | cons b t => rfl

/-- Closed form of the scanner record list while a record is in flight:
the accumulated sequence, extended by the non-marker lines up to the next
marker, then the specification-side records of the remaining input. -/
theorem records_nonempty_name :
    ∀ (lines : List GoStr) (name curSeq : GoStr), name.isEmpty = false →
      records lines name curSeq =
        (name, curSeq ++ joinLines (lines.takeWhile (fun l => !isMarker l))) ::
          specRecords lines := by
  intro lines
  induction lines with
  | nil =>
    intro name curSeq hname
    simp [records, hname, joinLines, specRecords]
  | cons l ls ih =>
    intro name curSeq hname
    by_cases hm : isMarker l
    · rw [records, if_pos hm, if_neg (by simp [hname])]
      rw [ih l [] (isMarker_isEmpty l hm)]
      rw [List.takeWhile_cons]
      simp only [hm, Bool.not_true, Bool.false_eq_true, if_false]
      rw [specRecords, if_pos hm]
      simp [joinLines]
    · rw [records, if_neg (by simp [hm])]
      rw [ih name (curSeq ++ l) hname]
      rw [List.takeWhile_cons]
      simp only [hm, Bool.not_false, if_true]
      rw [specRecords, if_neg (by simp [hm])]
      simp [joinLines, List.append_assoc]

/-- Closed form of the scanner record list before the first marker: the
specification-side records, with the leading non-marker junk (and any
accumulated junk) folded into the first record's sequence. -/
theorem records_empty_name :
    ∀ (lines : List GoStr) (curSeq : GoStr),
      records lines [] curSeq =
        patchFirst (curSeq ++ leadJunk lines) (specRecords lines) := by
  intro lines
  induction lines with
  | nil =>
    intro curSeq
    simp [records, specRecords, patchFirst]
  | cons l ls ih =>
    intro curSeq
    by_cases hm : isMarker l
    · rw [records, if_pos hm]
      simp only [List.isEmpty_nil, if_true]
      rw [records_nonempty_name ls l curSeq (isMarker_isEmpty l hm)]
      rw [specRecords, if_pos hm]
      unfold leadJunk
      rw [List.takeWhile_cons]
      simp only [hm, Bool.not_true, Bool.false_eq_true, if_false]
      simp [patchFirst, joinLines]
    · rw [records, if_neg (by simp [hm])]
      rw [ih (curSeq ++ l)]
      rw [specRecords, if_neg (by simp [hm])]
      unfold leadJunk
      rw [List.takeWhile_cons]
      simp only [hm, Bool.not_false, if_true]
      simp [joinLines, List.append_assoc, leadJunk]

/-- The names of the specification-side records are exactly the marker
lines, in order. -/
theorem specRecords_map_fst :
    ∀ (lines : List GoStr),
      (specRecords lines).map Prod.fst = lines.filter isMarker := by
  intro lines
  induction lines with
  | nil => simp [specRecords]
  | cons line rest ih =>
    by_cases hm : isMarker line
    · rw [specRecords, if_pos hm, List.filter_cons]
      simp [hm, ih]
    · rw [specRecords, if_neg hm, List.filter_cons]
      simp [hm, ih]

/-- Patching the first sequence does not change the names. -/
theorem patchFirst_map_fst (j : GoStr) (rs : List (GoStr × GoStr)) :
    (patchFirst j rs).map Prod.fst = rs.map Prod.fst := by
  cases rs with
  | nil => rfl
  | cons r t => cases r; simp [patchFirst]

/-- C2 (amended): the table has one record per marker line, the i-th name
is the i-th marker line, and the i-th sequence is the concatenation of
the non-marker lines strictly between that marker and the next - except
that every non-marker line before the first marker is folded into the
first record's sequence.  The driver's final table consists exactly of
these records' names and their sequences' profiles. -/
theorem processFileInChunks_records :
    ∀ lines : List GoStr,
      records lines [] [] = patchFirst (leadJunk lines) (specRecords lines) ∧
      (records lines [] []).map Prod.fst = lines.filter isMarker ∧
      (records lines [] []).length = (lines.filter isMarker).length ∧
      ∀ chunkSize maxG : Nat,
        processFileInChunks lines chunkSize maxG =
          (mapProfiles ((records lines [] []).map Prod.snd)).map
            (fun profs => ((records lines [] []).map Prod.fst, profs)) := by
  intro lines
  have h1 : records lines [] [] =
      patchFirst (leadJunk lines) (specRecords lines) := by
    have h := records_empty_name lines []
    simpa using h
  have h2 : (records lines [] []).map Prod.fst = lines.filter isMarker := by
    rw [h1, patchFirst_map_fst, specRecords_map_fst]
  refine ⟨h1, h2, ?_, ?_⟩
  · rw [← h2, List.length_map]
  · intro c g
    unfold processFileInChunks
    rw [processLines_eq g lines c initState rfl]
    simp [initState]

/-- Counterexample to C2 as stated: with a non-marker line before the
first marker, the first record's sequence is not the text between its
marker and the next marker, and the profile in the resulting table
differs accordingly. -/
theorem records_leading_junk_cex :
    records [[65, 66], [62, 88]] [] [] = [([62, 88], [65, 66])] ∧
      specRecords [[65, 66], [62, 88]] = [([62, 88], [])] ∧
      records [[65, 66], [62, 88]] [] [] ≠ specRecords [[65, 66], [62, 88]] ∧
      (processFileInChunks [[65, 66], [62, 88]] 10000 6).map
          (fun T => (T.1, T.2.map (fun p => p.Sum))) =
        some ([[62, 88]], [1]) ∧
      (buildProfile ([] : GoStr)).map (fun p => p.Sum) = some 0 :=
  ⟨by decide, by decide, by decide, by decide, by decide⟩

end RecordClaims

section InvariantClaims

/-- C6 (amended): a profile built from an uppercase sequence of length at
most 2 ^ 32 (so that no uint32 counter wraps) satisfies the invariant
total = sum of counters, and every profile of a table produced by the
pipeline from such sequences satisfies it (profiles are values, never
mutated after construction). -/
theorem buildProfile_invariant :
    (∀ s : GoStr, upperStr s → s.length ≤ 2 ^ 32 →
      ∀ p, buildProfile s = some p → p.Sum = sumCounts p) ∧
    (∀ (lines : List GoStr) (c g : Nat) (T : List GoStr × List ProteinProfile),
      processFileInChunks lines c g = some T →
      (∀ r ∈ records lines [] [], upperStr r.2 ∧ r.2.length ≤ 2 ^ 32) →
      ∀ p ∈ T.2, p.Sum = sumCounts p) := by
  have core : ∀ s : GoStr, upperStr s → s.length ≤ 2 ^ 32 →
      ∀ p, buildProfile s = some p → p.Sum = sumCounts p := by
    intro s hs hlen p hp
    obtain ⟨q, hq, ⟨hinv, _⟩, _⟩ := buildProfile_good s hs hlen
    rw [hp] at hq
    obtain rfl := Option.some_inj.mp hq
    exact hinv
  refine ⟨core, ?_⟩
  intro lines c g T hT hrecs p hp
  unfold processFileInChunks at hT
  rw [processLines_eq g lines c initState rfl] at hT
  cases hmp : mapProfiles (initState.chunkSeqs ++
      (records lines initState.currentName initState.currentSequence).map
        Prod.snd) with
  | none =>
    rw [hmp] at hT
    exact absurd hT (by simp)
  | some profs =>
    rw [hmp] at hT
    have hT2 : T = (initState.allNames ++ initState.chunkNames ++
        (records lines initState.currentName initState.currentSequence).map
          Prod.fst,
        initState.allProfiles ++ profs) := (Option.some_inj.mp hT).symm
    have hpmem : p ∈ profs := by
      rw [hT2] at hp
      simpa [initState] using hp
    obtain ⟨s, hsmem, hsp⟩ := mapProfiles_mem _ profs hmp p hpmem
    simp only [initState, List.nil_append] at hsmem
    obtain ⟨r, hr, hrs⟩ := List.mem_map.mp hsmem
    obtain ⟨hup, hlen⟩ := hrecs r hr
    exact core s (hrs ▸ hup) (hrs ▸ hlen) p hsp

/-- Witness for the amended C6 at the concrete uppercase string AB. -/
theorem buildProfile_invariant_witness :
    upperStr ([65, 66] : GoStr) ∧ ([65, 66] : GoStr).length ≤ 2 ^ 32 ∧
      ∀ p, buildProfile ([65, 66] : GoStr) = some p → p.Sum = sumCounts p :=
  ⟨by decide, by decide, buildProfile_invariant.1 [65, 66] (by decide) (by decide)⟩

/-- The buildProfile loop on a block of letters A: every step hits index
0 and the uint32 counter wraps modulo 2 ^ 32 while the uint64 total does
not. -/
theorem buildAux_replicate :
    ∀ (n : Nat) (p : ProteinProfile),
      p.Profile ⟨0, by norm_num⟩ < 2 ^ 32 → p.Sum < 2 ^ 64 →
      buildAux (65 : Byte) (List.replicate n (65 : Byte)) p =
        some ⟨Function.update p.Profile ⟨0, by norm_num⟩
            ((p.Profile ⟨0, by norm_num⟩ + n) % 2 ^ 32),
          (p.Sum + n) % 2 ^ 64⟩ := by
  intro n
  induction n with
  | zero =>
    intro p hp hs
    rw [List.replicate_zero]
    unfold buildAux
    rw [Nat.add_zero, Nat.add_zero, Nat.mod_eq_of_lt hp, Nat.mod_eq_of_lt hs,
      Function.update_eq_self]
  | succ n ih =>
    intro p hp hs
    rw [List.replicate_succ]
    unfold buildAux
    have hidx : bigramIndex (65 : Byte) (65 : Byte) = 0 := by decide
    rw [dif_pos (by rw [hidx]; norm_num)]
    have hfin : (⟨bigramIndex (65 : Byte) (65 : Byte), by rw [hidx]; norm_num⟩ :
        Fin 676) = ⟨0, by norm_num⟩ := by
      apply Fin.ext
      simpa using hidx
    rw [hfin]
    have hb1 : (bumpProfile p ⟨0, by norm_num⟩).Profile ⟨0, by norm_num⟩ =
        (p.Profile ⟨0, by norm_num⟩ + 1) % 2 ^ 32 := by
      unfold bumpProfile
      dsimp only
      rw [Function.update_same]
    have hb2 : (bumpProfile p ⟨0, by norm_num⟩).Sum = (p.Sum + 1) % 2 ^ 64 := rfl
    rw [ih (bumpProfile p ⟨0, by norm_num⟩)
      (by rw [hb1]; exact Nat.mod_lt _ (by norm_num))
      (by rw [hb2]; exact Nat.mod_lt _ (by norm_num))]
    unfold bumpProfile
    dsimp only
    rw [Function.update_idem, Function.update_same, Nat.mod_add_mod,
      Nat.mod_add_mod]
    have e1 : p.Profile ⟨0, by norm_num⟩ + 1 + n =
        p.Profile ⟨0, by norm_num⟩ + (n + 1) := by omega
    have e2 : p.Sum + 1 + n = p.Sum + (n + 1) := by omega
    rw [e1, e2]

/-- Counterexample to C6 as stated: on the uppercase sequence of
2 ^ 32 + 2 letters A the single used uint32 counter wraps around to 1
while the uint64 total reaches 2 ^ 32 + 1, so the built profile violates
total = sum of counters. -/
theorem buildProfile_uint32_wrap_cex :
    buildProfile (List.replicate (2 ^ 32 + 2) (65 : Byte)) =
      some ⟨Function.update zeroProfile.Profile ⟨0, by norm_num⟩ 1,
        2 ^ 32 + 1⟩ ∧
      (2 ^ 32 + 1 : Nat) ≠
        sumCounts ⟨Function.update zeroProfile.Profile ⟨0, by norm_num⟩ 1,
          2 ^ 32 + 1⟩ := by
  constructor
  · have hrep : List.replicate (2 ^ 32 + 2) (65 : Byte) =
        (65 : Byte) :: List.replicate (2 ^ 32 + 1) (65 : Byte) := by
      rw [← List.replicate_succ]
    rw [hrep]
    rw [show buildProfile ((65 : Byte) :: List.replicate (2 ^ 32 + 1) (65 : Byte)) =
      buildAux (65 : Byte) (List.replicate (2 ^ 32 + 1) (65 : Byte)) zeroProfile
      from rfl]
    rw [buildAux_replicate (2 ^ 32 + 1) zeroProfile (by norm_num [zeroProfile])
      (by norm_num [zeroProfile])]
    norm_num [zeroProfile]
  · have hsum : sumCounts ⟨Function.update zeroProfile.Profile
        ⟨0, by norm_num⟩ 1, 2 ^ 32 + 1⟩ = 1 := by
      rw [sumCounts_eq]
      simp only []
      rw [← Finset.add_sum_erase _ _ (Finset.mem_univ (⟨0, by norm_num⟩ : Fin 676))]
      rw [Function.update_same]
      have hz : ∑ i ∈ Finset.univ.erase (⟨0, by norm_num⟩ : Fin 676),
          Function.update zeroProfile.Profile ⟨0, by norm_num⟩ 1 i = 0 := by
        refine Finset.sum_eq_zero ?_
        intro i hi
        rw [Function.update_noteq (Finset.ne_of_mem_erase hi)]
        rfl
      rw [hz]
    rw [hsum]
    norm_num

end InvariantClaims

section HeapLemmas

/-- A finite heap entry carries an explicit rational. -/
theorem psFin_exists (x : ProteinSimilarity) (hx : psFin x) :
    ∃ q, x.similarity = GoFloat.finite q := by
  unfold psFin isFiniteF at hx
  cases h : x.similarity <;> rw [h] at hx
  · exact absurd hx (by simp)
  · exact absurd hx (by simp)
  · exact absurd hx (by simp)
  · exact ⟨_, rfl⟩

/-- The heap comparison on finite entries is the strict comparison of the
stored rationals. -/
theorem psLess_eq (x y : ProteinSimilarity) (hx : psFin x) (hy : psFin y) :
    psLess x y = decide (qval y.similarity < qval x.similarity) := by
  obtain ⟨qx, hqx⟩ := psFin_exists x hx
  obtain ⟨qy, hqy⟩ := psFin_exists y hy
  unfold psLess
  rw [hqx, hqy]
  simp [goGt, qval]

/-- Irreflexivity of the heap comparison on finite entries. -/
theorem psLess_irrefl (x : ProteinSimilarity) (hx : psFin x) :
    psLess x x = false := by
  rw [psLess_eq x x hx hx]
  simp

/-- Asymmetry of the heap comparison on finite entries. -/
theorem psLess_asymm (x y : ProteinSimilarity) (hx : psFin x) (hy : psFin y)
    (h : psLess x y = true) : psLess y x = false := by
  rw [psLess_eq x y hx hy] at h
  rw [psLess_eq y x hy hx]
  simp only [decide_eq_true_eq] at h
  simp only [decide_eq_false_iff_not]
  exact fun h2 => absurd (lt_trans h h2) (lt_irrefl _)

/-- Negative transitivity of the heap comparison on finite entries. -/
theorem psLess_negtrans (x y z : ProteinSimilarity) (hx : psFin x)
    (hy : psFin y) (hz : psFin z) (h1 : psLess x y = false)
    (h2 : psLess y z = false) : psLess x z = false := by
  rw [psLess_eq x y hx hy] at h1
  rw [psLess_eq y z hy hz] at h2
  rw [psLess_eq x z hx hz]
  simp only [decide_eq_false_iff_not] at h1 h2 ⊢
  intro h3
  exact h2 (lt_of_lt_of_le h3 (le_of_not_lt h1))

/-- Mixed transitivity: a is not above b, c is strictly above b, so a is
not above c. -/
theorem psLess_mixed (a b c : ProteinSimilarity) (ha : psFin a) (hb : psFin b)
    (hc : psFin c) (h1 : psLess a b = false) (h2 : psLess c b = true) :
    psLess a c = false := by
  rw [psLess_eq a b ha hb] at h1
  rw [psLess_eq c b hc hb] at h2
  rw [psLess_eq a c ha hc]
  simp only [decide_eq_false_iff_not] at h1 ⊢
  simp only [decide_eq_true_eq] at h2
  intro h3
  exact h1 (lt_trans h2 h3)

/-- Reading a valid index with the default-carrying read. -/
theorem psGetD_lt (l : List ProteinSimilarity) (k : Nat) (h : k < l.length) :
    psGetD l k = l[k] := List.getD_eq_getElem l default h

/-- Every valid read of an all-finite slice is finite. -/
theorem allFin_getD (l : List ProteinSimilarity) (h : allFin l) (k : Nat)
    (hk : k < l.length) : psFin (psGetD l k) := by
  rw [psGetD_lt l k hk]
  exact h _ (List.getElem_mem hk)

/-- Finiteness is preserved by permutations. -/
theorem allFin_perm (l1 l2 : List ProteinSimilarity) (hp : l1.Perm l2)
    (h : allFin l2) : allFin l1 := fun x hx => h x (hp.mem_iff.mp hx)

/-- Swap preserves length. -/
theorem lswap_length (l : List ProteinSimilarity) (i j : Nat) :
    (lswap l i j).length = l.length := by
  simp [lswap]

/-- Reading the first swapped position. -/
theorem psGetD_lswap_fst (l : List ProteinSimilarity) (i j : Nat)
    (hi : i < l.length) (hj : j < l.length) :
    psGetD (lswap l i j) i = psGetD l j := by
  unfold lswap psGetD
  by_cases hij : i = j
  · subst hij
    rw [List.getD_eq_getElem _ _ (by simp [hi]),
      List.getElem_set_self, List.getD_eq_getElem _ _ hi]
  · rw [List.getD_eq_getElem _ _ (by simp [hi]),
      List.getElem_set_ne (fun h => hij h.symm) (by simp [hi]),
      List.getElem_set_self (by simp [hi]), List.getD_eq_getElem _ _ hj]

/-- Reading the second swapped position. -/
theorem psGetD_lswap_snd (l : List ProteinSimilarity) (i j : Nat)
    (hi : i < l.length) (hj : j < l.length) :
    psGetD (lswap l i j) j = psGetD l i := by
  unfold lswap psGetD
  rw [List.getD_eq_getElem _ _ (by simp [hj]), List.getElem_set_self,
    List.getD_eq_getElem _ _ hi]

/-- Reading any other position after a swap. -/
theorem psGetD_lswap_other (l : List ProteinSimilarity) (i j k : Nat)
    (hki : k ≠ i) (hkj : k ≠ j) : psGetD (lswap l i j) k = psGetD l k := by
  unfold lswap psGetD
  by_cases hk : k < l.length
  · rw [List.getD_eq_getElem _ _ (by simp [hk]),
      List.getElem_set_ne (fun h => hkj h.symm) (by simp [hk]),
      List.getElem_set_ne (fun h => hki h.symm)
        (by rw [List.length_set]; exact hk),
      List.getD_eq_getElem _ _ hk]
  · rw [List.getD_eq_default _ _ (by simp; omega),
      List.getD_eq_default _ _ (by omega)]

/-- Replacing one element and consing the old value is a permutation. -/
theorem getD_cons_set_perm :
    ∀ (t : List ProteinSimilarity) (m : Nat) (a : ProteinSimilarity),
      m < t.length → (t.getD m default :: t.set m a).Perm (a :: t) := by
  intro t
  induction t with
  | nil => intro m a h; simp at h
  | cons b s ih =>
    intro m a h
    cases m with
    | zero =>
      simp only [List.getD_cons_zero, List.set_cons_zero]
      exact List.Perm.swap a b s
    | succ n =>
      simp only [List.getD_cons_succ, List.set_cons_succ]
      have h1 : (s.getD n default :: b :: s.set n a).Perm
          (b :: s.getD n default :: s.set n a) := List.Perm.swap _ _ _
      have h2 : (b :: s.getD n default :: s.set n a).Perm (b :: a :: s) :=
        (ih n a (by simp at h; omega)).cons b
      have h3 : (b :: a :: s).Perm (a :: b :: s) := List.Perm.swap _ _ _
      exact (h1.trans h2).trans h3

/-- A swap of two valid positions is a permutation. -/
theorem lswap_perm :
    ∀ (l : List ProteinSimilarity) (i j : Nat),
      i < l.length → j < l.length → (lswap l i j).Perm l := by
  intro l
  induction l with
  | nil => intro i j hi hj; simp at hi
  | cons b t ih =>
    intro i j hi hj
    cases i with
    | zero =>
      cases j with
      | zero =>
        simp only [lswap, psGetD, List.getD_cons_zero, List.set_cons_zero]
        exact List.Perm.refl _
      | succ m =>
        simp only [lswap, psGetD, List.getD_cons_zero, List.getD_cons_succ,
          List.set_cons_zero, List.set_cons_succ]
        exact getD_cons_set_perm t m b (by simp at hj; omega)
    | succ k =>
      cases j with
      | zero =>
        simp only [lswap, psGetD, List.getD_cons_zero, List.getD_cons_succ,
          List.set_cons_zero, List.set_cons_succ]
        exact getD_cons_set_perm t k b (by simp at hi; omega)
      | succ m =>
        simp only [lswap, psGetD, List.getD_cons_succ, List.set_cons_succ]
        exact (ih k m (by simp at hi; omega) (by simp at hj; omega)).cons b

end HeapLemmas

end Lab1
